import Mathlib

/-!
# Verification of the quick-oxibooks-sql query builder and DSL front end

This development embeds the two source files of the repository:

* `src/lib.rs` — the runtime query model: `Query<QB>`, `WhereClause`,
  `OrderClause`, `Limit`, `Operator`, and the renderer `query_string()`.
  The Rust type parameter `QB : QBItem` is used by the renderer only through
  `QB::name()`, so the embedded `Query` carries that collection name as a
  `name : String` field.  The indexing `self.values[0]` in
  `WhereClause::extend_query` panics on an empty vector; the embedding makes
  the renderer `Option`-valued, with `none` standing for that panic.
* `quick-oxibooks-sql-macro/src/lib.rs` — the procedural macro: the
  `to_camel_case` normalizer, the recursive-descent parser over token
  streams (`SqlQuery::parse` and the `Parse` impls), and the value-vector
  construction of `SqlQuery::expand` for `in` conditions.

Rust `String` values are embedded as Lean `String`, vectors as lists, and
`u32` machine integers as `Nat` (the renderer only formats them, it never
performs arithmetic, so no overflow reasoning is required).
-/

namespace Oxibooks

/-- `Operator` from `src/lib.rs` (runtime crate). -/
inductive Operator where
  | In
  | Like
  | Equal
  | Less
  | Greater
  | LessEqual
  | GreaterEqual
deriving DecidableEq

/-- `WhereClause` from `src/lib.rs`: a rendered condition. -/
structure WhereClause where
  field : String
  operator : Operator
  values : List String
deriving DecidableEq

/-- `Order` from `src/lib.rs`. -/
inductive Order where
  | Asc
  | Desc
deriving DecidableEq

/-- `OrderClause` from `src/lib.rs`. -/
structure OrderClause where
  field : String
  order : Order
deriving DecidableEq

/-- `Limit` from `src/lib.rs`. -/
structure Limit where
  number : Nat
  offset : Option Nat
deriving DecidableEq

/-- `Query<QB>` from `src/lib.rs`.  The phantom type parameter `QB` enters
rendering only via `QB::name()`, embedded here as the `name` field. -/
structure Query where
  name : String
  fields : List String
  condition : List WhereClause
  order : List OrderClause
  limit : Option Limit
deriving DecidableEq

/-- `Query::new()`. -/
def Query.new (name : String) : Query :=
  { name := name, fields := [], condition := [], order := [], limit := none }

/-- `Query::field` (unsafe builder mutator): pushes a selected field. -/
def Query.field (q : Query) (f : String) : Query :=
  { q with fields := q.fields ++ [f] }

/-- `Query::condition` (unsafe builder mutator): pushes a where clause.
Named `pushCondition` because `condition` is the structure projection. -/
def Query.pushCondition (q : Query) (c : WhereClause) : Query :=
  { q with condition := q.condition ++ [c] }

/-- `Query::order` (unsafe builder mutator): pushes an order clause.
Named `pushOrder` because `order` is the structure projection. -/
def Query.pushOrder (q : Query) (f : String) (o : Order) : Query :=
  { q with order := q.order ++ [{ field := f, order := o }] }

/-- `Query::limit`: sets the limit/offset pair.  Named `setLimit` because
`limit` is the structure projection. -/
def Query.setLimit (q : Query) (number : Nat) (offset : Option Nat) : Query :=
  { q with limit := some { number := number, offset := offset } }

/-- The `op_str` table computed at the top of `WhereClause::extend_query`. -/
def opStr : Operator → String
  | Operator.In => "IN"
  | Operator.Like => "LIKE"
  | Operator.Equal => "="
  | Operator.Less => "<"
  | Operator.Greater => ">"
  | Operator.LessEqual => "<="
  | Operator.GreaterEqual => ">="

/-- `Limit::extend_query`: appends ` LIMIT {number}` and, when an offset is
present, ` OFFSET {offset}`. -/
def Limit.extendQuery (l : Limit) (query : String) : String :=
  let query := query ++ " LIMIT " ++ toString l.number
  match l.offset with
  | some offset => query ++ " OFFSET " ++ toString offset
  | none => query

/-- `OrderClause::extend_query`: appends ` {field} {ASC|DESC}`. -/
def OrderClause.extendQuery (o : OrderClause) (query : String) : String :=
  query ++ " " ++ o.field ++ " " ++
    (match o.order with
     | Order.Asc => "ASC"
     | Order.Desc => "DESC")

/-- `WhereClause::extend_query`.  The non-`In` arm reads `self.values[0]`,
which panics when `values` is empty; that panic is the `none` result. -/
def WhereClause.extendQuery (c : WhereClause) (query : String) : Option String :=
  let opS := opStr c.operator
  if c.operator = Operator.In then
    let query := query ++ " " ++ c.field ++ " IN ("
    let query :=
      match c.values with
      | [] => query
      | v :: vs =>
          vs.foldl (fun acc w => acc ++ ", " ++ ("'" ++ w ++ "'"))
            (query ++ ("'" ++ v ++ "'"))
    some (query ++ ")")
  else
    match c.values with
    | [] => none
    | v :: _ => some (query ++ " " ++ c.field ++ " " ++ opS ++ " '" ++ v ++ "'")

/-- The `i > 0` iterations of the `where` loop in `query_string`: each
further condition is rendered after pushing `" and"`, and a panic in
`extend_query` aborts the whole computation. -/
def whereLoop (acc : String) : List WhereClause → Option String
  | [] => some acc
  | c :: cs =>
      match WhereClause.extendQuery c (acc ++ " and") with
      | none => none
      | some acc2 => whereLoop acc2 cs

/-- The field-selection block of `query_string` (lines 49–60 of
`src/lib.rs`): `select *` when no field was selected, otherwise `select `
followed by the fields with `, ` pushed before every field but the first. -/
def selectLoop (fields : List String) : String :=
  match fields with
  | [] => "select *"
  | f :: fs => fs.foldl (fun acc g => acc ++ ", " ++ g) ("select " ++ f)

/-- The condition block of `query_string` (lines 64–72): nothing when the
condition list is empty, otherwise ` where` followed by the conditions with
` and` pushed before every condition but the first. -/
def whereApply (query : String) : List WhereClause → Option String
  | [] => some query
  | c :: cs =>
      (WhereClause.extendQuery c (query ++ " where")).bind fun acc =>
        whereLoop acc cs

/-- The order block of `query_string` (lines 74–82): nothing when the order
list is empty, otherwise ` order by` followed by the order clauses with `,`
pushed before every clause but the first. -/
def orderLoop (query : String) : List OrderClause → String
  | [] => query
  | o :: os =>
      let query := query ++ " order by"
      os.foldl (fun acc o2 => OrderClause.extendQuery o2 (acc ++ ","))
        (OrderClause.extendQuery o query)

/-- The limit block of `query_string` (lines 84–86). -/
def limitApply (query : String) : Option Limit → String
  | some l => Limit.extendQuery l query
  | none => query

/-- `Query::query_string`, assembled from the four statement blocks in
source order.  The initial accumulator is the empty string. -/
def Query.queryString (q : Query) : Option String :=
  let query := ""
  let query := query ++ selectLoop q.fields
  let query := query ++ " from " ++ q.name
  (whereApply query q.condition).map fun query =>
    limitApply (orderLoop query q.order) q.limit

/-! ## Compositional description of the rendered string

The following definitions restate each clause of the renderer as a pure
fragment, so that theorems can speak about the shape of the output.  The
bridge between the imperative accumulation above and these fragments is
`queryString_eq` below. -/

/-- Join a list of strings with a separator between consecutive elements. -/
def sepJoin (sep : String) : List String → String
  | [] => ""
  | [x] => x
  | x :: xs => x ++ sep ++ sepJoin sep xs

/-- The `select` section of the output. -/
def selectPart (fields : List String) : String :=
  match fields with
  | [] => "select *"
  | fs => "select " ++ sepJoin ", " fs

/-- The fragment contributed by one condition (without any `and`
separator); `none` models the `values[0]` panic of a non-`In` clause with
no values. -/
def condFrag (c : WhereClause) : Option String :=
  if c.operator = Operator.In then
    some (" " ++ c.field ++ " IN (" ++
      sepJoin ", " (c.values.map (fun v => "'" ++ v ++ "'")) ++ ")")
  else
    match c.values with
    | [] => none
    | v :: _ => some (" " ++ c.field ++ " " ++ opStr c.operator ++ " '" ++ v ++ "'")

/-- All condition fragments, or `none` if any clause panics. -/
def condFrags : List WhereClause → Option (List String)
  | [] => some []
  | c :: cs => (condFrag c).bind fun f => (condFrags cs).map (fun l => f :: l)

/-- The `where` section of the output. -/
def wherePart (cs : List WhereClause) : Option String :=
  match cs with
  | [] => some ""
  | _ => (condFrags cs).map (fun l => " where" ++ sepJoin " and" l)

/-- The fragment contributed by one order term. -/
def orderFrag (o : OrderClause) : String :=
  " " ++ o.field ++ " " ++
    (match o.order with
     | Order.Asc => "ASC"
     | Order.Desc => "DESC")

/-- The `order by` section of the output. -/
def orderPart (os : List OrderClause) : String :=
  match os with
  | [] => ""
  | _ => " order by" ++ sepJoin "," (os.map orderFrag)

/-- The `LIMIT`/`OFFSET` section of the output. -/
def limitPart : Option Limit → String
  | none => ""
  | some l =>
      " LIMIT " ++ toString l.number ++
        (match l.offset with
         | some o => " OFFSET " ++ toString o
         | none => "")

/-- Separator-joined tail of condition fragments, as accumulated by the
`where` loop after its first iteration. -/
def andTail : List String → String
  | [] => ""
  | f :: fs => " and" ++ f ++ andTail fs

/-- The fragment a condition contributes per the rendering contract:
`In` renders as ` <Field> IN (` plus comma-space-joined single-quoted
values plus `)`; every other operator renders as
` <Field> <OP> '<value>'` with the first (for well-formed clauses, only)
value. -/
def condRenderSpec (c : WhereClause) : String :=
  if c.operator = Operator.In then
    " " ++ c.field ++ " IN (" ++
      sepJoin ", " (c.values.map (fun v => "'" ++ v ++ "'")) ++ ")"
  else
    " " ++ c.field ++ " " ++ opStr c.operator ++ " '" ++ c.values.headD "" ++ "'"

/-! ## Builder operations as data (for determinism statements)

The macro expansion issues a sequence of builder calls; `BuilderOp` records
one such call and `applyOps` replays a sequence against a fresh builder. -/

/-- One builder mutation, as issued by the generated code. -/
inductive BuilderOp where
  | field (f : String)
  | condition (c : WhereClause)
  | order (f : String) (o : Order)
  | limit (number : Nat) (offset : Option Nat)
deriving DecidableEq

/-- Replay one builder call. -/
def applyOp (q : Query) : BuilderOp → Query
  | BuilderOp.field f => q.field f
  | BuilderOp.condition c => q.pushCondition c
  | BuilderOp.order f o => q.pushOrder f o
  | BuilderOp.limit n off => q.setLimit n off

/-- Replay a sequence of builder calls. -/
def applyOps (ops : List BuilderOp) (q : Query) : Query :=
  ops.foldl applyOp q

/-- A call of `query_string(&self)`: it returns the rendered string and the
receiver it borrowed, unchanged (the method takes `&self` and the embedding
makes that explicit). -/
def queryStringCall (q : Query) : Option String × Query :=
  (q.queryString, q)

namespace SqlMacro

/-- Rust's `str::split(c)`: split a character sequence at every occurrence
of `c`; adjacent separators and separators at either end contribute empty
segments, exactly as in Rust. -/
def splitOnChar (c : Char) : List Char → List (List Char)
  | [] => [[]]
  | x :: xs =>
      let r := splitOnChar c xs
      if x = c then [] :: r
      else
        match r with
        | [] => [[x]]
        | w :: ws => (x :: w) :: ws

/-- `to_camel_case`'s per-segment closure: uppercase the first character,
keep the rest verbatim.  Rust's `char::to_uppercase` agrees with
`Char.toUpper` on the ASCII identifiers this macro accepts. -/
def capitalize (word : List Char) : String :=
  match word with
  | [] => ""
  | first :: rest => (Char.toUpper first).toString ++ String.mk rest

/-- `to_camel_case` from `quick-oxibooks-sql-macro/src/lib.rs`: split on
`_`, uppercase the first character of each segment, concatenate. -/
def toCamelCase (s : String) : String :=
  String.join ((splitOnChar '_' s.data).map capitalize)

/-! ### Token-stream model of the procedural macro's parser

The macro parses a Rust token stream through `syn`.  Tokens are embedded as
an inductive: identifiers (keywords included), integer / float / string
literals, punctuation characters, and parenthesized groups.  `syn::Expr`
value positions are embedded as single atomic value tokens — the spec
treats value expressions as opaque host terms, and the grammar only ever
stringifies or iterates them. -/

inductive Tok where
  | ident (s : String)
  | litInt (n : Nat)
  | litStr (s : String)
  | litFloat (raw : String)
  | punct (c : Char)
  | group (ts : List Tok)

/-- An opaque value expression (`syn::Expr` in atomic form). -/
inductive SynExpr where
  | id (s : String)
  | int (n : Nat)
  | str (s : String)
  | float (raw : String)
deriving DecidableEq

/-- `Operator` from the macro crate. -/
inductive Operator where
  | Equal
  | Less
  | Greater
  | LessEqual
  | GreaterEqual
  | In
  | Like
deriving DecidableEq

/-- `FieldSelection` from the macro crate. -/
inductive FieldSelection where
  | All
  | Specific (fields : List String)
deriving DecidableEq

/-- `Condition` from the macro crate. -/
structure Condition where
  field : String
  operator : Operator
  values : List SynExpr
deriving DecidableEq

/-- `OrderDirection` from the macro crate. -/
inductive OrderDirection where
  | Asc
  | Desc
deriving DecidableEq

/-- `OrderField` from the macro crate. -/
structure OrderField where
  field : String
  direction : Option OrderDirection
deriving DecidableEq

/-- `OrderBy` from the macro crate. -/
structure OrderBy where
  orders : List OrderField
deriving DecidableEq

/-- `LimitClause` from the macro crate (`number: LitInt`,
`offset: Option<syn::Expr>`). -/
structure LimitClause where
  number : Nat
  offset : Option SynExpr
deriving DecidableEq

/-- `SqlQuery` from the macro crate (the AST root). -/
structure SqlQuery where
  fields : FieldSelection
  item_type : String
  conditions : List Condition
  order_by : Option OrderBy
  limit : Option LimitClause
deriving DecidableEq

/-- The Rust keywords of this grammar that `syn::Ident::parse` refuses
(`where` and `in` are Rust keywords; `select`, `from`, `and`, `like`,
`order`, `by`, `limit`, `offset`, `asc`, `desc` are ordinary identifiers
handled as `syn::custom_keyword`). -/
def isRustKw (s : String) : Bool :=
  s = "where" || s = "in"

/-- `input.parse::<Ident>()`. -/
def parseIdent : List Tok → Except String (String × List Tok)
  | Tok.ident s :: rest =>
      if isRustKw s then Except.error "expected identifier"
      else Except.ok (s, rest)
  | _ => Except.error "expected identifier"

/-- `input.parse::<kw::k>()` / `input.parse::<Token![where]>()`. -/
def parseKw (kw : String) : List Tok → Except String (List Tok)
  | Tok.ident s :: rest =>
      if s = kw then Except.ok rest
      else Except.error ("expected keyword " ++ kw)
  | _ => Except.error "expected keyword"

/-- `input.peek(kw::k)`. -/
def peekIdent (kw : String) : List Tok → Bool
  | Tok.ident s :: _ => s = kw
  | _ => false

/-- Classify a single token as an atomic value expression. -/
def exprTok : Tok → Option SynExpr
  | Tok.ident s => if isRustKw s then none else some (SynExpr.id s)
  | Tok.litInt n => some (SynExpr.int n)
  | Tok.litStr s => some (SynExpr.str s)
  | Tok.litFloat r => some (SynExpr.float r)
  | Tok.punct _ => none
  | Tok.group _ => none

/-- `input.parse::<syn::Expr>()` over atomic value tokens. -/
def parseExpr : List Tok → Except String (SynExpr × List Tok)
  | t :: rest =>
      match exprTok t with
      | some v => Except.ok (v, rest)
      | none => Except.error "expected expression"
  | [] => Except.error "expected expression"

/-- `Operator::parse`: single-token lookahead disambiguates `<` from `<=`
and `>` from `>=`; `in` and `like` arrive as identifier tokens. -/
def parseOperator : List Tok → Except String (Operator × List Tok)
  | Tok.punct '=' :: rest => Except.ok (Operator.Equal, rest)
  | Tok.punct '<' :: Tok.punct '=' :: rest => Except.ok (Operator.LessEqual, rest)
  | Tok.punct '<' :: rest => Except.ok (Operator.Less, rest)
  | Tok.punct '>' :: Tok.punct '=' :: rest => Except.ok (Operator.GreaterEqual, rest)
  | Tok.punct '>' :: rest => Except.ok (Operator.Greater, rest)
  | Tok.ident s :: rest =>
      if s = "in" then Except.ok (Operator.In, rest)
      else if s = "like" then Except.ok (Operator.Like, rest)
      else Except.error "expected operator"
  | _ => Except.error "expected operator"

/-- The `(sep elem)*` tail of
`Punctuated::<Ident, Comma>::parse_separated_nonempty`: while the next
token is a comma, consume it and parse one more identifier.  `fuel` bounds
the iteration count; callers pass the token-list length, which the loop
can never exceed since every iteration consumes at least the comma. -/
def identTail (fuel : Nat) (acc : List String) (ts : List Tok) :
    Except String (List String × List Tok) :=
  match fuel with
  | 0 => Except.ok (acc, ts)
  | fuel + 1 =>
    match ts with
    | Tok.punct ',' :: rest =>
        (match parseIdent rest with
         | Except.error e => Except.error e
         | Except.ok (s, rest2) => identTail fuel (acc ++ [s]) rest2)
    | _ => Except.ok (acc, ts)

/-- `Punctuated::<Ident, Comma>::parse_separated_nonempty`. -/
def parseIdentList (ts : List Tok) : Except String (List String × List Tok) :=
  match parseIdent ts with
  | Except.error e => Except.error e
  | Except.ok (f, rest) => identTail rest.length [f] rest

/-- The `(sep elem)*` tail of
`Punctuated::<Expr, Comma>::parse_separated_nonempty`; fueled like
`identTail`. -/
def exprListTail (fuel : Nat) (acc : List SynExpr) (ts : List Tok) :
    Except String (List SynExpr × List Tok) :=
  match fuel with
  | 0 => Except.ok (acc, ts)
  | fuel + 1 =>
    match ts with
    | Tok.punct ',' :: rest =>
        (match parseExpr rest with
         | Except.error e => Except.error e
         | Except.ok (v, rest2) => exprListTail fuel (acc ++ [v]) rest2)
    | _ => Except.ok (acc, ts)

/-- `Punctuated::<Expr, Comma>::parse_separated_nonempty`. -/
def parseExprList (ts : List Tok) : Except String (List SynExpr × List Tok) :=
  match parseExpr ts with
  | Except.error e => Except.error e
  | Except.ok (v, rest) => exprListTail rest.length [v] rest

/-- `input.peek(Token![*])` and friends: peek one punctuation token. -/
def peekPunct (c : Char) : List Tok → Bool
  | Tok.punct c2 :: _ => c2 = c
  | _ => false

/-- Field selection: `*`, or a non-empty comma-separated identifier list
(`SqlQuery::parse` peeks `Token![*]` and otherwise parses the list). -/
def parseFieldSel (ts : List Tok) : Except String (FieldSelection × List Tok) :=
  if peekPunct '*' ts then
    match ts with
    | _ :: rest => Except.ok (FieldSelection.All, rest)
    | [] => Except.error "expected field selection"
  else
    match parseIdentList ts with
    | Except.error e => Except.error e
    | Except.ok (l, rest) => Except.ok (FieldSelection.Specific l, rest)

/-- `input.parse::<Type>()`: the target type reference, opaque to this
layer, embedded as a type identifier token. -/
def parseType : List Tok → Except String (String × List Tok)
  | Tok.ident s :: rest =>
      if isRustKw s then Except.error "expected type"
      else Except.ok (s, rest)
  | _ => Except.error "expected type"

/-- `Condition::parse`: field identifier, operator, then either a
parenthesized non-empty expression list (for `in`) or a single value
expression.  Tokens left over inside the parenthesized group after the
list are ignored, as `syn` does not require the inner stream to be fully
consumed. -/
def parseCondition (ts : List Tok) : Except String (Condition × List Tok) :=
  match parseIdent ts with
  | Except.error e => Except.error e
  | Except.ok (f, ts1) =>
    match parseOperator ts1 with
    | Except.error e => Except.error e
    | Except.ok (op, ts2) =>
      if op = Operator.In then
        match ts2 with
        | Tok.group inner :: rest =>
            (match parseExprList inner with
             | Except.error e => Except.error e
             | Except.ok (vs, _) =>
                 Except.ok ({ field := f, operator := op, values := vs }, rest))
        | _ => Except.error "expected parenthesized value list"
      else
        match parseExpr ts2 with
        | Except.error e => Except.error e
        | Except.ok (v, ts3) =>
            Except.ok ({ field := f, operator := op, values := [v] }, ts3)

/-- The `while input.peek(kw::and)` loop of `SqlQuery::parse`, pushing one
condition per iteration.  `fuel` bounds the iteration count; callers pass
the token-list length, which the loop can never exceed since every
iteration consumes at least the `and` token. -/
def condTail (fuel : Nat) (acc : List Condition) (ts : List Tok) :
    Except String (List Condition × List Tok) :=
  match fuel with
  | 0 => Except.ok (acc, ts)
  | fuel + 1 =>
    match ts with
    | Tok.ident s :: rest =>
        if s = "and" then
          match parseCondition rest with
          | Except.error e => Except.error e
          | Except.ok (c, rest2) => condTail fuel (acc ++ [c]) rest2
        else Except.ok (acc, ts)
    | _ => Except.ok (acc, ts)

/-- `OrderField::parse`: identifier, then optional `asc` / `desc`
(peeked, not required). -/
def parseOrderField : List Tok → Except String (OrderField × List Tok)
  | Tok.ident f :: Tok.ident s :: rest =>
      if isRustKw f then Except.error "expected identifier"
      else if s = "asc" then
        Except.ok ({ field := f, direction := some OrderDirection.Asc }, rest)
      else if s = "desc" then
        Except.ok ({ field := f, direction := some OrderDirection.Desc }, rest)
      else Except.ok ({ field := f, direction := none }, Tok.ident s :: rest)
  | Tok.ident f :: rest =>
      if isRustKw f then Except.error "expected identifier"
      else Except.ok ({ field := f, direction := none } , rest)
  | _ => Except.error "expected identifier"

/-- The `(sep elem)*` tail of
`Punctuated::<OrderField, Comma>::parse_separated_nonempty`; fueled like
`condTail`. -/
def orderTail (fuel : Nat) (acc : List OrderField) (ts : List Tok) :
    Except String (List OrderField × List Tok) :=
  match fuel with
  | 0 => Except.ok (acc, ts)
  | fuel + 1 =>
    match ts with
    | Tok.punct ',' :: rest =>
        match parseOrderField rest with
        | Except.error e => Except.error e
        | Except.ok (o, rest2) => orderTail fuel (acc ++ [o]) rest2
    | _ => Except.ok (acc, ts)

/-- `OrderBy::parse`: `order` `by`, then a non-empty comma-separated list
of order fields. -/
def parseOrderBy (ts : List Tok) : Except String (OrderBy × List Tok) :=
  match parseKw "order" ts with
  | Except.error e => Except.error e
  | Except.ok ts1 =>
    match parseKw "by" ts1 with
    | Except.error e => Except.error e
    | Except.ok ts2 =>
      match parseOrderField ts2 with
      | Except.error e => Except.error e
      | Except.ok (o, rest) =>
          match orderTail rest.length [o] rest with
          | Except.error e => Except.error e
          | Except.ok (l, rest2) => Except.ok ({ orders := l }, rest2)

/-- `LimitClause::parse`: `limit`, an integer literal, then an optional
`offset` expression. -/
def parseLimit (ts : List Tok) : Except String (LimitClause × List Tok) :=
  match parseKw "limit" ts with
  | Except.error e => Except.error e
  | Except.ok ts1 =>
    match ts1 with
    | Tok.litInt n :: rest =>
        if peekIdent "offset" rest then
          match parseKw "offset" rest with
          | Except.error e => Except.error e
          | Except.ok rest2 =>
            match parseExpr rest2 with
            | Except.error e => Except.error e
            | Except.ok (v, rest3) =>
                Except.ok ({ number := n, offset := some v }, rest3)
        else Except.ok ({ number := n, offset := none }, rest)
    | _ => Except.error "expected integer literal"

/-- `SqlQuery::parse` (the `Parse` impl, lines 71–122 of the macro crate):
`select` fieldsel `from` type `where` cond (`and` cond)* [orderby]
[limit]. -/
def parseSqlQuery (ts : List Tok) : Except String (SqlQuery × List Tok) :=
  match parseKw "select" ts with
  | Except.error e => Except.error e
  | Except.ok ts1 =>
  match parseFieldSel ts1 with
  | Except.error e => Except.error e
  | Except.ok (fields, ts2) =>
  match parseKw "from" ts2 with
  | Except.error e => Except.error e
  | Except.ok ts3 =>
  match parseType ts3 with
  | Except.error e => Except.error e
  | Except.ok (ty, ts4) =>
  match parseKw "where" ts4 with
  | Except.error e => Except.error e
  | Except.ok ts5 =>
  match parseCondition ts5 with
  | Except.error e => Except.error e
  | Except.ok (c0, ts6) =>
  match condTail ts6.length [c0] ts6 with
  | Except.error e => Except.error e
  | Except.ok (conds, ts7) =>
  match (if peekIdent "order" ts7 then
           (match parseOrderBy ts7 with
            | Except.error e => Except.error e
            | Except.ok (ob, r) => Except.ok (some ob, r))
         else Except.ok (none, ts7)) with
  | Except.error e => Except.error e
  | Except.ok (ob, ts8) =>
  match (if peekIdent "limit" ts8 then
           (match parseLimit ts8 with
            | Except.error e => Except.error e
            | Except.ok (lc, r) => Except.ok (some lc, r))
         else Except.ok (none, ts8)) with
  | Except.error e => Except.error e
  | Except.ok (lim, ts9) =>
      Except.ok ({ fields := fields, item_type := ty, conditions := conds,
                   order_by := ob, limit := lim }, ts9)

/-! ### The values vector generated by `SqlQuery::expand` for a condition

The generated code evaluates host expressions; a `HostVal` records what the
host produces for one value term: its `to_string()` rendering, and (when
iterated as a sequence) the `to_string()` of each element in order. -/

/-- Host-evaluation record of one opaque value expression. -/
structure HostVal where
  display : String
  elems : List String
deriving DecidableEq

/-- Lines 296–312 of the macro crate: for an `In` condition whose value
list is a single expression, the generated code iterates that expression
and pushes `v.to_string()` per element; otherwise it stringifies each
value term independently, preserving order. -/
def condValues (op : Operator) (values : List HostVal) : List String :=
  if op = Operator.In ∧ values.length = 1 then
    match values with
    | v :: _ => v.elems
    | [] => []
  else
    values.map (fun v => v.display)

/-- `Operator::to_tokens`: the macro-side operator names the runtime-side
constructor of the same name. -/
def Operator.toRuntime : Operator → Oxibooks.Operator
  | Operator.Equal => Oxibooks.Operator.Equal
  | Operator.Less => Oxibooks.Operator.Less
  | Operator.Greater => Oxibooks.Operator.Greater
  | Operator.LessEqual => Oxibooks.Operator.LessEqual
  | Operator.GreaterEqual => Oxibooks.Operator.GreaterEqual
  | Operator.In => Oxibooks.Operator.In
  | Operator.Like => Oxibooks.Operator.Like

/-- The `WhereClause` literal generated by `SqlQuery::expand` for one
condition: camel-cased field, translated operator, computed values. -/
def condClause (field : String) (op : Operator) (values : List HostVal) :
    Oxibooks.WhereClause :=
  { field := toCamelCase field
    operator := Operator.toRuntime op
    values := condValues op values }

end SqlMacro

/-- The builder produced by the canonical end-to-end scenario:
`select display_name, balance from Customer where display_name like
"John%" and id in (1, 2, 3) and balance >= 1000.0 order by display_name
asc, balance desc limit 10 offset 5`.  Value strings are what the host
produces: integers display as decimal digits and the float literal
`1000.0` displays as `1000`. -/
def canonicalQuery : Query :=
  ((((((((Query.new "Customer").field
    (SqlMacro.toCamelCase "display_name")).field
    (SqlMacro.toCamelCase "balance")).pushCondition
    { field := SqlMacro.toCamelCase "display_name", operator := Operator.Like,
      values := ["John%"] }).pushCondition
    { field := SqlMacro.toCamelCase "id", operator := Operator.In,
      values := [toString (1 : Nat), toString (2 : Nat), toString (3 : Nat)] }).pushCondition
    { field := SqlMacro.toCamelCase "balance", operator := Operator.GreaterEqual,
      values := ["1000"] }).pushOrder
    (SqlMacro.toCamelCase "display_name") Order.Asc).pushOrder
    (SqlMacro.toCamelCase "balance") Order.Desc).setLimit 10 (some 5)

/-- A builder holding a malformed clause: an `=` condition with an empty
values vector, on which `query_string()` would index out of bounds. -/
def badQuery : Query :=
  (Query.new "Customer").pushCondition
    { field := "Balance", operator := Operator.Equal, values := [] }

/-- A sample sequence of builder calls, as the macro expansion would issue. -/
def demoOps : List BuilderOp :=
  [BuilderOp.field "DisplayName",
   BuilderOp.condition
     { field := "DisplayName", operator := Operator.Like, values := ["John%"] },
   BuilderOp.order "Balance" Order.Desc,
   BuilderOp.limit 10 (some 5)]

/-- Token stream of `select * from Customer where id = 1`. -/
def demoToks : List SqlMacro.Tok :=
  [SqlMacro.Tok.ident "select", SqlMacro.Tok.punct '*', SqlMacro.Tok.ident "from",
   SqlMacro.Tok.ident "Customer", SqlMacro.Tok.ident "where", SqlMacro.Tok.ident "id",
   SqlMacro.Tok.punct '=', SqlMacro.Tok.litInt 1]

/-- The AST `demoToks` parses to. -/
def demoParsed : SqlMacro.SqlQuery :=
  { fields := SqlMacro.FieldSelection.All
    item_type := "Customer"
    conditions := [{ field := "id", operator := SqlMacro.Operator.Equal,
                     values := [SqlMacro.SynExpr.int 1] }]
    order_by := none
    limit := none }

/-- Host evaluation of a sequence value `ids = vec![1, 2, 3]` used in
spread position: iterating it stringifies each element. -/
def demoSpread : SqlMacro.HostVal :=
  { display := "ids", elems := ["1", "2", "3"] }

/-- Host evaluation of the explicit list values `1, 2, 3`. -/
def demoListVals : List SqlMacro.HostVal :=
  [{ display := "1", elems := [] },
   { display := "2", elems := [] },
   { display := "3", elems := [] }]

/-! ## Bridge lemmas: imperative loops equal joined fragments -/

set_option maxRecDepth 10000

theorem sepJoin_cons_cons (sep x w : String) (ws : List String) :
    sepJoin sep ((x ++ sep ++ w) :: ws) = x ++ sep ++ sepJoin sep (w :: ws) := by
  cases ws <;> simp [sepJoin, String.append_assoc]

theorem foldl_sep (sep : String) (xs : List String) :
    ∀ p x : String,
      xs.foldl (fun acc w => acc ++ sep ++ w) (p ++ x) = p ++ sepJoin sep (x :: xs) := by
  induction xs with
  | nil => intro p x; simp [sepJoin]
  | cons w ws ih =>
    intro p x
    have h1 : p ++ x ++ sep ++ w = p ++ (x ++ sep ++ w) := by
      simp [String.append_assoc]
    calc (w :: ws).foldl (fun acc y => acc ++ sep ++ y) (p ++ x)
        = ws.foldl (fun acc y => acc ++ sep ++ y) (p ++ (x ++ sep ++ w)) := by
          rw [List.foldl_cons, h1]
      _ = p ++ sepJoin sep ((x ++ sep ++ w) :: ws) := ih p (x ++ sep ++ w)
      _ = p ++ (x ++ sep ++ sepJoin sep (w :: ws)) := by rw [sepJoin_cons_cons]
      _ = p ++ sepJoin sep (x :: w :: ws) := by simp [sepJoin, String.append_assoc]

theorem whereExtend_eq (c : WhereClause) (s : String) :
    c.extendQuery s = (condFrag c).map (fun f => s ++ f) := by
  unfold WhereClause.extendQuery condFrag
  by_cases h : c.operator = Operator.In
  · cases hv : c.values with
    | nil => simp [h, hv, sepJoin, String.append_assoc]
    | cons v vs =>
      have hm :
          vs.foldl (fun acc w => acc ++ ", " ++ ("'" ++ w ++ "'"))
              ((s ++ " " ++ c.field ++ " IN (") ++ ("'" ++ v ++ "'"))
            = (s ++ " " ++ c.field ++ " IN (") ++
                sepJoin ", " (("'" ++ v ++ "'") :: vs.map (fun w => "'" ++ w ++ "'")) := by
        rw [← List.foldl_map (f := fun w => "'" ++ w ++ "'")
          (g := fun acc y => acc ++ ", " ++ y)]
        exact foldl_sep ", " (vs.map fun w => "'" ++ w ++ "'") _ _
      simp only [String.append_assoc] at hm
      simp [h, hv, hm, String.append_assoc, List.map_cons]
  · cases hv : c.values with
    | nil => simp [h, hv]
    | cons v vs => simp [h, hv, String.append_assoc]

theorem orderExtend_eq (o : OrderClause) (s : String) :
    o.extendQuery s = s ++ orderFrag o := by
  unfold OrderClause.extendQuery orderFrag
  simp [String.append_assoc]

theorem limitExtend_eq (l : Limit) (s : String) :
    l.extendQuery s = s ++ limitPart (some l) := by
  obtain ⟨n, off⟩ := l
  unfold Limit.extendQuery limitPart
  cases off <;> simp [String.append_assoc]

theorem sepJoin_and (x : String) (l : List String) :
    sepJoin " and" (x :: l) = x ++ andTail l := by
  induction l generalizing x with
  | nil => simp [sepJoin, andTail]
  | cons f fs ih => simp [sepJoin, andTail, ih, String.append_assoc]

theorem whereLoop_eq (cs : List WhereClause) :
    ∀ s : String, whereLoop s cs = (condFrags cs).map (fun l => s ++ andTail l) := by
  induction cs with
  | nil => intro s; simp [whereLoop, condFrags, andTail]
  | cons c cs ih =>
    intro s
    rw [whereLoop, whereExtend_eq c (s ++ " and")]
    cases hf : condFrag c with
    | none => simp [condFrags, hf]
    | some f =>
      simp only [Option.map_some']
      rw [ih (s ++ " and" ++ f)]
      cases hcs : condFrags cs with
      | none => simp [condFrags, hf, hcs]
      | some l => simp [condFrags, hf, hcs, andTail, String.append_assoc]

theorem selectLoop_eq (fields : List String) : selectLoop fields = selectPart fields := by
  cases fields with
  | nil => simp [selectLoop, selectPart]
  | cons f fs =>
    rw [selectLoop, foldl_sep ", " fs "select " f]
    simp [selectPart]

theorem orderLoop_eq (order : List OrderClause) (x : String) :
    orderLoop x order = x ++ orderPart order := by
  cases order with
  | nil => simp [orderLoop, orderPart]
  | cons o os =>
    rw [orderLoop]
    have hmap :
        os.foldl (fun acc o2 => OrderClause.extendQuery o2 (acc ++ ","))
            (OrderClause.extendQuery o (x ++ " order by"))
          = (os.map orderFrag).foldl (fun acc w => acc ++ "," ++ w)
              ((x ++ " order by") ++ orderFrag o) := by
      rw [List.foldl_map]
      congr 1
      · funext acc o2
        rw [orderExtend_eq]
      · rw [orderExtend_eq]
    rw [hmap, foldl_sep "," (os.map orderFrag) (x ++ " order by") (orderFrag o)]
    simp [orderPart, String.append_assoc]

theorem limitApply_eq (limit : Option Limit) (y : String) :
    limitApply y limit = y ++ limitPart limit := by
  cases limit with
  | none => simp [limitApply, limitPart]
  | some l => rw [limitApply]; exact limitExtend_eq l y

theorem whereApply_eq (cs : List WhereClause) (base : String) :
    whereApply base cs = (wherePart cs).map (fun w => base ++ w) := by
  cases cs with
  | nil => simp [whereApply, wherePart]
  | cons c cs =>
    rw [whereApply, whereExtend_eq]
    cases hf : condFrag c with
    | none => simp [wherePart, condFrags, hf]
    | some f =>
      simp only [Option.map_some', Option.some_bind, whereLoop_eq]
      cases hcs : condFrags cs with
      | none => simp [wherePart, condFrags, hf, hcs]
      | some l =>
        simp only [wherePart, condFrags, hf, hcs, Option.some_bind, Option.map_some']
        simp [sepJoin_and, String.append_assoc]

/-- Master decomposition: `query_string()` is the concatenation of the five
sections, with `none` exactly when some non-`In` clause has no values. -/
theorem queryString_eq (q : Query) :
    q.queryString = (wherePart q.condition).map
      (fun w => selectPart q.fields ++ " from " ++ q.name ++ w ++
        orderPart q.order ++ limitPart q.limit) := by
  show Option.map (fun query => limitApply (orderLoop query q.order) q.limit)
      (whereApply ("" ++ selectLoop q.fields ++ " from " ++ q.name) q.condition) = _
  rw [String.empty_append, whereApply_eq]
  rw [Option.map_map]
  cases hw : wherePart q.condition with
  | none => simp
  | some w =>
    simp only [Option.map_some', Function.comp]
    rw [orderLoop_eq]
    rw [limitApply_eq]
    rw [selectLoop_eq]


/-! ## Fragment-level facts shared by the claim theorems -/

theorem wherePart_nil : wherePart [] = some "" := rfl

theorem wherePart_cons (c : WhereClause) (cs : List WhereClause) :
    wherePart (c :: cs) =
      (condFrags (c :: cs)).map (fun l => " where" ++ sepJoin " and" l) := rfl

theorem orderPart_nil : orderPart [] = "" := rfl

theorem orderPart_cons (o : OrderClause) (os : List OrderClause) :
    orderPart (o :: os) = " order by" ++ sepJoin "," ((o :: os).map orderFrag) := rfl

theorem condFrag_some_eq (c : WhereClause) (f : String) (h : condFrag c = some f) :
    f = condRenderSpec c := by
  by_cases hop : c.operator = Operator.In
  · simp [condFrag, condRenderSpec, hop] at h ⊢
    exact h.symm
  · cases hv : c.values with
    | nil => simp [condFrag, hop, hv] at h
    | cons v vs =>
      simp [condFrag, condRenderSpec, hop, hv] at h ⊢
      exact h.symm

theorem condFrag_none_nonIn (c : WhereClause) (hop : ¬ c.operator = Operator.In)
    (hv : c.values = []) : condFrag c = none := by
  simp [condFrag, hop, hv]

theorem condFrag_isSome_of (c : WhereClause)
    (h : ¬ c.operator = Operator.In → ¬ c.values = []) :
    (condFrag c).isSome = true := by
  by_cases hop : c.operator = Operator.In
  · simp [condFrag, hop]
  · cases hv : c.values with
    | nil => exact absurd hv (h hop)
    | cons v vs => simp [condFrag, hop, hv]

theorem condFrags_some_eq (cs : List WhereClause) :
    ∀ l, condFrags cs = some l → l = cs.map condRenderSpec := by
  induction cs with
  | nil =>
    intro l h
    simp [condFrags] at h
    simp [← h]
  | cons c cs ih =>
    intro l h
    simp only [condFrags] at h
    cases hf : condFrag c with
    | none => rw [hf] at h; simp at h
    | some f =>
      rw [hf] at h
      cases hcs : condFrags cs with
      | none => rw [hcs] at h; simp at h
      | some l2 =>
        rw [hcs] at h
        simp at h
        rw [← h, condFrag_some_eq c f hf, ih l2 hcs]
        simp [List.map_cons]

theorem condFrags_isSome_of (cs : List WhereClause)
    (h : ∀ c ∈ cs, ¬ c.operator = Operator.In → ¬ c.values = []) :
    (condFrags cs).isSome = true := by
  induction cs with
  | nil => simp [condFrags]
  | cons c cs ih =>
    have h1 : (condFrag c).isSome = true := condFrag_isSome_of c (h c (by simp))
    obtain ⟨f, hf⟩ := Option.isSome_iff_exists.mp h1
    have h2 := ih (fun c2 hc2 => h c2 (by simp [hc2]))
    obtain ⟨l, hl⟩ := Option.isSome_iff_exists.mp h2
    simp [condFrags, hf, hl]

theorem condFrags_none_of (cs : List WhereClause) (c : WhereClause) (hc : c ∈ cs)
    (hop : ¬ c.operator = Operator.In) (hv : c.values = []) :
    condFrags cs = none := by
  induction cs with
  | nil => cases hc
  | cons c2 cs ih =>
    rcases List.mem_cons.mp hc with h1 | h1
    · rw [← h1] at *
      simp [condFrags, condFrag_none_nonIn c hop hv]
    · have h2 := ih h1
      cases hf : condFrag c2 <;> simp [condFrags, hf, h2]

/-! ## Claim theorems -/

/-- C1: for the canonical end-to-end scenario the claimed rendering reads
`... DisplayName ASC, BalanceDESC LIMIT ...` with no space between the
field and the direction keyword; the code pushes `" {field} {dir}"` in
`OrderClause::extend_query`, so the rendered string reads
`... Balance DESC ...` and the claimed string is never returned. -/
theorem claim_C1_counterexample :
    Query.queryString canonicalQuery ≠
      some "select DisplayName, Balance from Customer where DisplayName LIKE 'John%' and Id IN ('1', '2', '3') and Balance >= '1000' order by DisplayName ASC, BalanceDESC LIMIT 10 OFFSET 5" := by
  decide

/-- C1 (amended): `query_string()` on the canonical builder returns exactly
the reference string with a single space before every order direction:
`... order by DisplayName ASC, Balance DESC LIMIT 10 OFFSET 5`. -/
theorem claim_C1_query_string :
    Query.queryString canonicalQuery =
      some "select DisplayName, Balance from Customer where DisplayName LIKE 'John%' and Id IN ('1', '2', '3') and Balance >= '1000' order by DisplayName ASC, Balance DESC LIMIT 10 OFFSET 5" := by
  decide

/-- C2: whenever the order list is non-empty, the rendered string is some
prefix, then ` order by`, then the order terms in insertion order joined by
a bare comma, each term a single space, the field, a single space and the
direction keyword, followed only by the limit section. -/
theorem claim_C2_order_rendering (q : Query) (s : String) (hord : ¬ q.order = [])
    (h : q.queryString = some s) :
    (∃ p, s = p ++ " order by" ++ sepJoin "," (q.order.map orderFrag) ++
      limitPart q.limit) ∧
    (∀ f, orderFrag { field := f, order := Order.Asc } = " " ++ f ++ " " ++ "ASC") ∧
    (∀ f, orderFrag { field := f, order := Order.Desc } = " " ++ f ++ " " ++ "DESC") := by
  refine ⟨?_, fun f => rfl, fun f => rfl⟩
  rw [queryString_eq] at h
  cases hw : wherePart q.condition with
  | none => rw [hw] at h; simp at h
  | some w =>
    rw [hw, Option.map_some'] at h
    have hs := Option.some.inj h
    refine ⟨selectPart q.fields ++ " from " ++ q.name ++ w, ?_⟩
    cases hq : q.order with
    | nil => exact absurd hq hord
    | cons o os =>
      rw [← hs, hq, orderPart_cons]
      simp [String.append_assoc]

/-- C2 witness: the canonical builder instantiates the order-rendering
shape. -/
theorem claim_C2_witness :
    (∃ p, ("select DisplayName, Balance from Customer where DisplayName LIKE 'John%' and Id IN ('1', '2', '3') and Balance >= '1000' order by DisplayName ASC, Balance DESC LIMIT 10 OFFSET 5" : String) =
      p ++ " order by" ++ sepJoin "," (canonicalQuery.order.map orderFrag) ++
      limitPart canonicalQuery.limit) ∧
    (∀ f, orderFrag { field := f, order := Order.Asc } = " " ++ f ++ " " ++ "ASC") ∧
    (∀ f, orderFrag { field := f, order := Order.Desc } = " " ++ f ++ " " ++ "DESC") :=
  claim_C2_order_rendering canonicalQuery _ (by decide) (by decide)

/-- C3: with a non-empty condition list the rendered string carries
` where` once, then the conditions in insertion order joined by ` and`,
each rendered per `condRenderSpec` (`In` as ` <Field> IN ('v1', 'v2', ...)`
with comma-space between quoted values, the rest as
` <Field> <OP> '<value>'`); with an empty condition list no ` where`
section exists at all; and rendering succeeding forces every non-`In`
condition to hold at least one value. -/
theorem claim_C3_where_rendering (q : Query) (s : String) (h : q.queryString = some s) :
    (¬ q.condition = [] →
      s = selectPart q.fields ++ " from " ++ q.name ++ " where" ++
        sepJoin " and" (q.condition.map condRenderSpec) ++
        orderPart q.order ++ limitPart q.limit) ∧
    (q.condition = [] →
      s = selectPart q.fields ++ " from " ++ q.name ++
        orderPart q.order ++ limitPart q.limit) ∧
    (∀ c ∈ q.condition, ¬ c.operator = Operator.In → ¬ c.values = []) := by
  rw [queryString_eq] at h
  cases hw : wherePart q.condition with
  | none => rw [hw] at h; simp at h
  | some w =>
    rw [hw, Option.map_some'] at h
    have hs := Option.some.inj h
    refine ⟨?_, ?_, ?_⟩
    · intro hne
      cases hq : q.condition with
      | nil => exact absurd hq hne
      | cons c cs =>
        rw [hq, wherePart_cons] at hw
        cases hcf : condFrags (c :: cs) with
        | none => rw [hcf] at hw; simp at hw
        | some l =>
          rw [hcf, Option.map_some'] at hw
          have hww := Option.some.inj hw
          have hl := condFrags_some_eq (c :: cs) l hcf
          rw [← hs, ← hww, hl]
          simp [String.append_assoc]
    · intro hemp
      rw [hemp, wherePart_nil] at hw
      have hww := Option.some.inj hw
      rw [← hs, ← hww]
      simp [String.append_assoc]
    · intro c hc hop hv
      have h0 := condFrags_none_of q.condition c hc hop hv
      cases hq : q.condition with
      | nil => rw [hq] at hc; simp at hc
      | cons c2 cs =>
        rw [hq] at h0
        rw [hq, wherePart_cons, h0] at hw
        simp at hw

/-- C3 witness: the canonical builder instantiates the where-rendering
shape. -/
theorem claim_C3_witness :
    (¬ canonicalQuery.condition = [] →
      ("select DisplayName, Balance from Customer where DisplayName LIKE 'John%' and Id IN ('1', '2', '3') and Balance >= '1000' order by DisplayName ASC, Balance DESC LIMIT 10 OFFSET 5" : String) =
        selectPart canonicalQuery.fields ++ " from " ++ canonicalQuery.name ++ " where" ++
        sepJoin " and" (canonicalQuery.condition.map condRenderSpec) ++
        orderPart canonicalQuery.order ++ limitPart canonicalQuery.limit) ∧
    (canonicalQuery.condition = [] →
      ("select DisplayName, Balance from Customer where DisplayName LIKE 'John%' and Id IN ('1', '2', '3') and Balance >= '1000' order by DisplayName ASC, Balance DESC LIMIT 10 OFFSET 5" : String) =
        selectPart canonicalQuery.fields ++ " from " ++ canonicalQuery.name ++
        orderPart canonicalQuery.order ++ limitPart canonicalQuery.limit) ∧
    (∀ c ∈ canonicalQuery.condition, ¬ c.operator = Operator.In → ¬ c.values = []) :=
  claim_C3_where_rendering canonicalQuery _ (by decide)

/-- C8: the rendered string always begins with the selection section:
`select *` when no field was selected, otherwise `select ` followed by
the selected fields in order joined by comma-space. -/
theorem claim_C8_selection (q : Query) (s : String) (h : q.queryString = some s) :
    ∃ r, s = selectPart q.fields ++ r ∧
      (q.fields = [] → selectPart q.fields = "select *") ∧
      (¬ q.fields = [] → selectPart q.fields = "select " ++ sepJoin ", " q.fields) := by
  rw [queryString_eq] at h
  cases hw : wherePart q.condition with
  | none => rw [hw] at h; simp at h
  | some w =>
    rw [hw, Option.map_some'] at h
    have hs := Option.some.inj h
    refine ⟨" from " ++ q.name ++ w ++ orderPart q.order ++ limitPart q.limit, ?_, ?_, ?_⟩
    · rw [← hs]
      simp [String.append_assoc]
    · intro hf
      rw [hf]
      rfl
    · intro hf
      cases hq : q.fields with
      | nil => exact absurd hq hf
      | cons f fs => rfl

/-- C8 witness: the canonical builder instantiates the selection shape. -/
theorem claim_C8_witness :
    ∃ r, ("select DisplayName, Balance from Customer where DisplayName LIKE 'John%' and Id IN ('1', '2', '3') and Balance >= '1000' order by DisplayName ASC, Balance DESC LIMIT 10 OFFSET 5" : String) =
        selectPart canonicalQuery.fields ++ r ∧
      (canonicalQuery.fields = [] → selectPart canonicalQuery.fields = "select *") ∧
      (¬ canonicalQuery.fields = [] →
        selectPart canonicalQuery.fields = "select " ++ sepJoin ", " canonicalQuery.fields) :=
  claim_C8_selection canonicalQuery _ (by decide)

/-- C9: the rendered string is the rendering of the same builder without a
limit, followed by exactly ` LIMIT n` plus ` OFFSET o` when the offset is
present; when the limit is unset nothing is appended. -/
theorem claim_C9_limit_rendering (q : Query) (s : String) (h : q.queryString = some s) :
    ∃ core, Query.queryString { q with limit := none } = some core ∧
      s = core ++ limitPart q.limit ∧
      limitPart none = "" ∧
      (∀ n o, limitPart (some { number := n, offset := some o }) =
        " LIMIT " ++ toString n ++ " OFFSET " ++ toString o) ∧
      (∀ n, limitPart (some { number := n, offset := none }) = " LIMIT " ++ toString n) := by
  obtain ⟨name, fields, condition, order, limit⟩ := q
  rw [queryString_eq] at h
  dsimp only at h
  rw [queryString_eq]
  dsimp only
  cases hw : wherePart condition with
  | none => rw [hw] at h; simp at h
  | some w =>
    rw [hw, Option.map_some'] at h
    have hs := Option.some.inj h
    refine ⟨selectPart fields ++ " from " ++ name ++ w ++ orderPart order, ?_, ?_, rfl, ?_, ?_⟩
    · rw [Option.map_some']
      simp [limitPart]
    · exact hs.symm
    · intro n o
      simp [limitPart, String.append_assoc]
    · intro n
      simp [limitPart]

/-- C9 witness: the canonical builder instantiates the limit-rendering
shape. -/
theorem claim_C9_witness :
    ∃ core, Query.queryString { canonicalQuery with limit := none } = some core ∧
      ("select DisplayName, Balance from Customer where DisplayName LIKE 'John%' and Id IN ('1', '2', '3') and Balance >= '1000' order by DisplayName ASC, Balance DESC LIMIT 10 OFFSET 5" : String) =
        core ++ limitPart canonicalQuery.limit ∧
      limitPart none = "" ∧
      (∀ n o, limitPart (some { number := n, offset := some o }) =
        " LIMIT " ++ toString n ++ " OFFSET " ++ toString o) ∧
      (∀ n, limitPart (some { number := n, offset := none }) = " LIMIT " ++ toString n) :=
  claim_C9_limit_rendering canonicalQuery _ (by decide)

/-- C10: when every non-`In` clause holds at least one value,
`query_string()` succeeds (never panics); a non-`In` clause with an empty
values vector makes it panic (the `values[0]` indexing, `none` here). -/
theorem claim_C10_totality (q : Query) :
    ((∀ c ∈ q.condition, ¬ c.operator = Operator.In → ¬ c.values = []) →
      (Query.queryString q).isSome = true) ∧
    (∀ c ∈ q.condition, ¬ c.operator = Operator.In → c.values = [] →
      Query.queryString q = none) := by
  constructor
  · intro hwf
    rw [queryString_eq]
    cases hq : q.condition with
    | nil => rw [wherePart_nil]; simp
    | cons c cs =>
      rw [hq] at hwf
      rw [wherePart_cons]
      have h1 := condFrags_isSome_of (c :: cs) hwf
      obtain ⟨l, hl⟩ := Option.isSome_iff_exists.mp h1
      rw [hl]
      simp
  · intro c hc hop hv
    rw [queryString_eq]
    have h0 := condFrags_none_of q.condition c hc hop hv
    cases hq : q.condition with
    | nil => rw [hq] at hc; simp at hc
    | cons c2 cs =>
      rw [hq] at h0
      rw [wherePart_cons, h0]
      simp

/-- C10 witness: the canonical builder renders successfully; `badQuery`
(an `=` clause with no values) renders to the panic value. -/
theorem claim_C10_witness :
    (Query.queryString canonicalQuery).isSome = true ∧
    Query.queryString badQuery = none :=
  ⟨(claim_C10_totality canonicalQuery).1 (by decide),
   (claim_C10_totality badQuery).2
     { field := "Balance", operator := Operator.Equal, values := [] }
     (by decide) (by decide) rfl⟩

/-- C5: `query_string()` is deterministic, idempotent and side-effect-free:
a call returns the rendering of the builder state and hands the borrowed
builder back unchanged; two builders constructed by the same operation
sequence render to the identical string; calling again on the returned
state yields the same string. -/
theorem claim_C5_determinism (name : String) (ops : List BuilderOp) (q1 q2 : Query)
    (h1 : q1 = applyOps ops (Query.new name)) (h2 : q2 = applyOps ops (Query.new name)) :
    queryStringCall q1 = (Query.queryString q1, q1) ∧
    (queryStringCall q1).1 = (queryStringCall q2).1 ∧
    (queryStringCall ((queryStringCall q1).2)).1 = (queryStringCall q1).1 := by
  subst h1
  subst h2
  exact ⟨rfl, rfl, rfl⟩

/-- C5 witness: determinism instantiated on a concrete operation
sequence. -/
theorem claim_C5_witness :
    queryStringCall (applyOps demoOps (Query.new "Customer")) =
      (Query.queryString (applyOps demoOps (Query.new "Customer")),
        applyOps demoOps (Query.new "Customer")) ∧
    (queryStringCall (applyOps demoOps (Query.new "Customer"))).1 =
      (queryStringCall (applyOps demoOps (Query.new "Customer"))).1 ∧
    (queryStringCall ((queryStringCall (applyOps demoOps (Query.new "Customer"))).2)).1 =
      (queryStringCall (applyOps demoOps (Query.new "Customer"))).1 :=
  claim_C5_determinism "Customer" demoOps _ _ rfl rfl

/-- C4: the name normalizer maps `display_name` to `DisplayName`, `id` to
`Id`, `a_b_c` to `ABC` and `a__b` to `AB` (empty segments contribute
nothing). -/
theorem claim_C4_normalizer :
    SqlMacro.toCamelCase "display_name" = "DisplayName" ∧
    SqlMacro.toCamelCase "id" = "Id" ∧
    SqlMacro.toCamelCase "a_b_c" = "ABC" ∧
    SqlMacro.toCamelCase "a__b" = "AB" :=
  ⟨by decide, by decide, by decide, by decide⟩

/-- C7: for an `In` condition, the spread form (one expression iterated at
run time) and the explicit multi-element list form build the same values
vector whenever the sequence elements stringify to the explicit values, so
the generated clauses and every rendering of them coincide. -/
theorem claim_C7_spread_equivalence (f : String) (e : SqlMacro.HostVal)
    (es : List SqlMacro.HostVal) (hlen : ¬ es.length = 1)
    (hv : e.elems = es.map (fun x => x.display)) :
    SqlMacro.condClause f SqlMacro.Operator.In [e] =
      SqlMacro.condClause f SqlMacro.Operator.In es ∧
    ∀ s, WhereClause.extendQuery (SqlMacro.condClause f SqlMacro.Operator.In [e]) s =
      WhereClause.extendQuery (SqlMacro.condClause f SqlMacro.Operator.In es) s := by
  have h1 : SqlMacro.condValues SqlMacro.Operator.In [e] = e.elems := by
    simp [SqlMacro.condValues]
  have h2 : SqlMacro.condValues SqlMacro.Operator.In es =
      es.map (fun x => x.display) := by
    simp [SqlMacro.condValues, hlen]
  have hc : SqlMacro.condClause f SqlMacro.Operator.In [e] =
      SqlMacro.condClause f SqlMacro.Operator.In es := by
    unfold SqlMacro.condClause
    rw [h1, h2, hv]
  exact ⟨hc, fun s => by rw [hc]⟩

/-- C7 witness: the sequence `[1, 2, 3]` in spread position and the
explicit list `1, 2, 3` generate identical clauses. -/
theorem claim_C7_witness :
    (SqlMacro.condClause "id" SqlMacro.Operator.In [demoSpread] =
      SqlMacro.condClause "id" SqlMacro.Operator.In demoListVals) ∧
    ∀ s, WhereClause.extendQuery (SqlMacro.condClause "id" SqlMacro.Operator.In [demoSpread]) s =
      WhereClause.extendQuery (SqlMacro.condClause "id" SqlMacro.Operator.In demoListVals) s :=
  claim_C7_spread_equivalence "id" demoSpread demoListVals (by decide) (by decide)


/-! ## Parser facts for the conjunction requirement -/

namespace SqlMacro

theorem parseKw_ok (kw : String) (ts r : List Tok) (h : parseKw kw ts = Except.ok r) :
    ts = Tok.ident kw :: r := by
  cases ts with
  | nil => simp [parseKw] at h
  | cons t rest =>
    cases t with
    | ident s =>
      simp only [parseKw] at h
      by_cases hs : s = kw
      · rw [if_pos hs] at h
        cases h
        rw [hs]
      · rw [if_neg hs] at h
        exact absurd h (by simp)
    | litInt n => simp [parseKw] at h
    | litStr s2 => simp [parseKw] at h
    | litFloat s2 => simp [parseKw] at h
    | punct c => simp [parseKw] at h
    | group g => simp [parseKw] at h

theorem parseIdent_ok (ts : List Tok) (f : String) (r : List Tok)
    (h : parseIdent ts = Except.ok (f, r)) : ts = Tok.ident f :: r := by
  cases ts with
  | nil => simp [parseIdent] at h
  | cons t rest =>
    cases t with
    | ident s =>
      simp only [parseIdent] at h
      cases hk : isRustKw s with
      | true => simp [hk] at h
      | false =>
        simp only [hk] at h
        simp only [Bool.false_eq_true, if_false, Except.ok.injEq, Prod.mk.injEq] at h
        obtain ⟨h1, h2⟩ := h
        rw [h1, h2]
    | litInt n => simp [parseIdent] at h
    | litStr s2 => simp [parseIdent] at h
    | litFloat s2 => simp [parseIdent] at h
    | punct c => simp [parseIdent] at h
    | group g => simp [parseIdent] at h

theorem parseType_ok (ts : List Tok) (f : String) (r : List Tok)
    (h : parseType ts = Except.ok (f, r)) : ts = Tok.ident f :: r := by
  cases ts with
  | nil => simp [parseType] at h
  | cons t rest =>
    cases t with
    | ident s =>
      simp only [parseType] at h
      cases hk : isRustKw s with
      | true => simp [hk] at h
      | false =>
        simp only [hk] at h
        simp only [Bool.false_eq_true, if_false, Except.ok.injEq, Prod.mk.injEq] at h
        obtain ⟨h1, h2⟩ := h
        rw [h1, h2]
    | litInt n => simp [parseType] at h
    | litStr s2 => simp [parseType] at h
    | litFloat s2 => simp [parseType] at h
    | punct c => simp [parseType] at h
    | group g => simp [parseType] at h

theorem identTail_suffix : ∀ (fuel : Nat) (acc : List String) (ts : List Tok)
    (l : List String) (r : List Tok),
    identTail fuel acc ts = Except.ok (l, r) → r <:+ ts := by
  intro fuel
  induction fuel with
  | zero =>
    intro acc ts l r h
    simp only [identTail, Except.ok.injEq, Prod.mk.injEq] at h
    rw [h.2]
  | succ n ih =>
    intro acc ts l r h
    simp only [identTail] at h
    split at h
    · rename_i rest
      cases hid : parseIdent rest with
      | error e => simp [hid] at h
      | ok p =>
        obtain ⟨s, rest2⟩ := p
        simp only [hid] at h
        have h1 := ih _ _ _ _ h
        have h2 : rest = Tok.ident s :: rest2 := parseIdent_ok rest s rest2 hid
        have h3 : rest2 <:+ rest := by rw [h2]; exact List.suffix_cons _ _
        exact (h1.trans h3).trans (List.suffix_cons _ _)
    · simp only [Except.ok.injEq, Prod.mk.injEq] at h
      rw [h.2]

theorem parseIdentList_suffix (ts : List Tok) (l : List String) (r : List Tok)
    (h : parseIdentList ts = Except.ok (l, r)) : r <:+ ts := by
  unfold parseIdentList at h
  cases hid : parseIdent ts with
  | error e => simp [hid] at h
  | ok p =>
    obtain ⟨f, rest⟩ := p
    simp only [hid] at h
    have h1 := identTail_suffix _ _ _ _ _ h
    have h2 : ts = Tok.ident f :: rest := parseIdent_ok ts f rest hid
    rw [h2]
    exact h1.trans (List.suffix_cons _ _)

theorem parseFieldSel_suffix (ts : List Tok) (fs : FieldSelection) (r : List Tok)
    (h : parseFieldSel ts = Except.ok (fs, r)) : r <:+ ts := by
  unfold parseFieldSel at h
  cases hpk : peekPunct '*' ts with
  | true =>
    simp only [hpk, if_true] at h
    cases ts with
    | nil => simp at h
    | cons t rest =>
      simp only [Except.ok.injEq, Prod.mk.injEq] at h
      rw [← h.2]
      exact List.suffix_cons _ _
  | false =>
    simp only [hpk, Bool.false_eq_true, if_false] at h
    cases hil : parseIdentList ts with
    | error e => simp [hil] at h
    | ok p =>
      obtain ⟨l, rest⟩ := p
      simp only [hil, Except.ok.injEq, Prod.mk.injEq] at h
      rw [← h.2]
      exact parseIdentList_suffix ts l rest hil

theorem condTail_acc : ∀ (fuel : Nat) (acc : List Condition) (ts : List Tok)
    (l : List Condition) (r : List Tok),
    condTail fuel acc ts = Except.ok (l, r) → ∃ ext, l = acc ++ ext := by
  intro fuel
  induction fuel with
  | zero =>
    intro acc ts l r h
    simp only [condTail, Except.ok.injEq, Prod.mk.injEq] at h
    exact ⟨[], by rw [← h.1]; simp⟩
  | succ n ih =>
    intro acc ts l r h
    simp only [condTail] at h
    split at h
    · rename_i s rest
      split at h
      · cases hc : parseCondition rest with
        | error e => simp [hc] at h
        | ok p =>
          obtain ⟨c, rest2⟩ := p
          simp only [hc] at h
          obtain ⟨ext, hext⟩ := ih _ _ _ _ h
          exact ⟨[c] ++ ext, by rw [hext]; simp⟩
      · simp only [Except.ok.injEq, Prod.mk.injEq] at h
        exact ⟨[], by rw [← h.1]; simp⟩
    · simp only [Except.ok.injEq, Prod.mk.injEq] at h
      exact ⟨[], by rw [← h.1]; simp⟩

/-- C6: the grammar requires `where` and at least one condition: whenever
`SqlQuery::parse` succeeds, the produced AST has a non-empty condition
list and the input token stream contains the `where` keyword — so an input
lacking `where`, or lacking a condition after it, is rejected with a
syntax error and no AST is produced. -/
theorem claim_C6_parse_requires_condition (ts : List Tok) (q : SqlQuery)
    (rest : List Tok) (h : parseSqlQuery ts = Except.ok (q, rest)) :
    ¬ q.conditions = [] ∧ Tok.ident "where" ∈ ts := by
  unfold parseSqlQuery at h
  cases h1 : parseKw "select" ts with
  | error e => simp [h1] at h
  | ok ts1 =>
  simp only [h1] at h
  cases h2 : parseFieldSel ts1 with
  | error e => simp [h2] at h
  | ok p2 =>
  obtain ⟨flds, ts2⟩ := p2
  simp only [h2] at h
  cases h3 : parseKw "from" ts2 with
  | error e => simp [h3] at h
  | ok ts3 =>
  simp only [h3] at h
  cases h4 : parseType ts3 with
  | error e => simp [h4] at h
  | ok p4 =>
  obtain ⟨ty, ts4⟩ := p4
  simp only [h4] at h
  cases h5 : parseKw "where" ts4 with
  | error e => simp [h5] at h
  | ok ts5 =>
  simp only [h5] at h
  cases h6 : parseCondition ts5 with
  | error e => simp [h6] at h
  | ok p6 =>
  obtain ⟨c0, ts6⟩ := p6
  simp only [h6] at h
  cases h7 : condTail ts6.length [c0] ts6 with
  | error e => simp [h7] at h
  | ok p7 =>
  obtain ⟨conds, ts7⟩ := p7
  simp only [h7] at h
  have e1 := parseKw_ok "select" ts ts1 h1
  have e2 := parseFieldSel_suffix ts1 flds ts2 h2
  have e3 := parseKw_ok "from" ts2 ts3 h3
  have e4 := parseType_ok ts3 ty ts4 h4
  have e5 := parseKw_ok "where" ts4 ts5 h5
  have hmem : Tok.ident "where" ∈ ts := by
    have m4 : Tok.ident "where" ∈ ts4 := by
      rw [e5]; exact List.mem_cons_self _ _
    have m3 : Tok.ident "where" ∈ ts3 := by
      rw [e4]; exact List.mem_cons_of_mem _ m4
    have m2 : Tok.ident "where" ∈ ts2 := by
      rw [e3]; exact List.mem_cons_of_mem _ m3
    have m1 : Tok.ident "where" ∈ ts1 := e2.subset m2
    rw [e1]; exact List.mem_cons_of_mem _ m1
  have hconds : ¬ conds = [] := by
    obtain ⟨ext, hext⟩ := condTail_acc ts6.length [c0] ts6 conds ts7 h7
    rw [hext]; simp
  cases hob : peekIdent "order" ts7 with
  | false =>
    simp only [hob, Bool.false_eq_true, if_false] at h
    cases hlim : peekIdent "limit" ts7 with
    | false =>
      simp only [hlim, Bool.false_eq_true, if_false, Except.ok.injEq, Prod.mk.injEq] at h
      obtain ⟨hq, -⟩ := h
      subst hq
      exact ⟨by simpa using hconds, hmem⟩
    | true =>
      simp only [hlim, if_true] at h
      cases h9 : parseLimit ts7 with
      | error e => simp [h9] at h
      | ok p9 =>
        obtain ⟨lc, ts9⟩ := p9
        simp only [h9, Except.ok.injEq, Prod.mk.injEq] at h
        obtain ⟨hq, -⟩ := h
        subst hq
        exact ⟨by simpa using hconds, hmem⟩
  | true =>
    simp only [hob, if_true] at h
    cases h8 : parseOrderBy ts7 with
    | error e => simp [h8] at h
    | ok p8 =>
    obtain ⟨ob, ts8⟩ := p8
    simp only [h8] at h
    cases hlim : peekIdent "limit" ts8 with
    | false =>
      simp only [hlim, Bool.false_eq_true, if_false, Except.ok.injEq, Prod.mk.injEq] at h
      obtain ⟨hq, -⟩ := h
      subst hq
      exact ⟨by simpa using hconds, hmem⟩
    | true =>
      simp only [hlim, if_true] at h
      cases h9 : parseLimit ts8 with
      | error e => simp [h9] at h
      | ok p9 =>
        obtain ⟨lc, ts9⟩ := p9
        simp only [h9, Except.ok.injEq, Prod.mk.injEq] at h
        obtain ⟨hq, -⟩ := h
        subst hq
        exact ⟨by simpa using hconds, hmem⟩

/-- C6 witness: `select * from Customer where id = 1` parses, its AST has a
condition, and its token stream contains `where`. -/
theorem claim_C6_witness :
    ¬ demoParsed.conditions = [] ∧ Tok.ident "where" ∈ demoToks :=
  claim_C6_parse_requires_condition demoToks demoParsed [] (by rfl)

end SqlMacro

end Oxibooks
